import Mathlib

/-!
Verification of the Blakeout hash construction (`src/src/lib.rs` and
`src/examples/file_blakeout.rs`) against its natural-language specification.

The underlying 256-bit block-hash primitive (`Blake2sVar` in the source) is
modelled as an abstract function `H : List Nat → List Nat` from the byte
sequence fed to a fresh accumulator to its finalized output.  Bytes are
natural numbers; the byte buffers of the Rust code are `List Nat`.
An accumulator (`Blake2sVar` value) is represented by the list of bytes fed
to it so far, so `digest.update(a); digest.update(b); finalize` is `H (a ++ b)`.
-/

/-- `DEFAULT_HASH_SIZE` from `lib.rs` (32 bytes per slot). -/
def DEFAULT_HASH_SIZE : Nat := 32

/-- `DEFAULT_HASH_COUNT` from `lib.rs` (65536 slots). -/
def DEFAULT_HASH_COUNT : Nat := 65536

/-- The `Blakeout` struct from `lib.rs`: working buffer, last result, dirty flag. -/
structure Blakeout where
  buffer : List Nat
  result : List Nat
  dirty : Bool

/-- `Blakeout::new`: buffer of `DEFAULT_HASH_SIZE * DEFAULT_HASH_COUNT` zero
bytes, empty result, `dirty = false`.  (Lines 44–48 of `lib.rs`; it performs
no operation on the hash primitive and cannot fail.) -/
def Blakeout.new : Blakeout :=
  { buffer := List.replicate (DEFAULT_HASH_SIZE * DEFAULT_HASH_COUNT) 0
    result := []
    dirty := false }

/-- `Blakeout::reset` (lines 56–58 of `lib.rs`): `self.dirty = false;` and
nothing else. -/
def Blakeout.reset (s : Blakeout) : Blakeout :=
  { s with dirty := false }

/-- The slice `l[a..b]` of a Rust byte buffer. -/
def listSlice (l : List Nat) (a b : Nat) : List Nat :=
  (l.drop a).take (b - a)

/-- Overwrite the bytes of `buf` at offsets `[x, x + s.length)` with `s`,
modelling `finalize_to(digest, &mut buf[x..x+len])`. -/
def writeAt (buf : List Nat) (x : Nat) (s : List Nat) : List Nat :=
  buf.take x ++ s ++ buf.drop (x + s.length)

/-- `let start = if x >= double_size { x - double_size } else { 0 }`
from the fill loop of `process_input`. -/
def windowStart (x : Nat) : Nat :=
  if x ≥ 2 * DEFAULT_HASH_SIZE then x - 2 * DEFAULT_HASH_SIZE else 0

/-- One iteration of the fill loop of `process_input`: hash the window
`buf[start..x]` with a fresh accumulator and finalize into `buf[x..x+32]`. -/
def fillStep (H : List Nat → List Nat) (buf : List Nat) (x : Nat) : List Nat :=
  writeAt buf x (H (listSlice buf (windowStart x) x))

/-- The fill loop of `process_input`, starting at slot index `i` with `n`
iterations remaining; the Rust loop is
`for x in (hash_size..hash_size * hash_count).step_by(hash_size)`,
i.e. `fillSlots H buf 1 (hash_count - 1)`. -/
def fillSlots (H : List Nat → List Nat) : List Nat → Nat → Nat → List Nat
  | buf, _, 0 => buf
  | buf, i, Nat.succ n => fillSlots H (fillStep H buf (i * DEFAULT_HASH_SIZE)) (i + 1) n

/-- The scratchpad as filled by `process_input` before the final fold:
slot 0 is the hash of (`result` if dirty) followed by `data`; slots
`1 .. hash_count - 1` are filled by the loop. -/
def scratchpad (H : List Nat → List Nat) (s : Blakeout) (data : List Nat) : List Nat :=
  let hash_size := DEFAULT_HASH_SIZE
  let hash_count := s.buffer.length / hash_size
  let acc := (if s.dirty then s.result else []) ++ data
  let buf0 := writeAt s.buffer 0 (H acc)
  fillSlots H buf0 1 (hash_count - 1)

/-- `Blakeout::process_input` (lines 75–101 of `lib.rs`): fill the scratchpad,
feed a fresh accumulator the whole buffer, reverse the buffer in place, feed
the same accumulator the reversed buffer, finalize into `result`, set
`dirty = true`. -/
def processInput (H : List Nat → List Nat) (s : Blakeout) (data : List Nat) : Blakeout :=
  let filled := scratchpad H s data
  { buffer := filled.reverse
    result := H (filled ++ filled.reverse)
    dirty := true }

/-- `Blakeout::update` simply delegates to `process_input`. -/
def Blakeout.update (H : List Nat → List Nat) (s : Blakeout) (data : List Nat) : Blakeout :=
  processInput H s data

/-- `Blakeout::output_size`. -/
def Blakeout.output_size : Nat := DEFAULT_HASH_SIZE

/-- Hex digit for a value `0..15`, lowercase, as produced by Rust's
`format!("{:01$x}", x, 2)`. -/
def hexDigit (n : Nat) : Char :=
  if n < 10 then Char.ofNat (48 + n) else Char.ofNat (87 + n)

/-- The two-character zero-padded lowercase rendering of one byte,
`format!("{:01$x}", x, 2)` for `x < 256`. -/
def byteToHex (b : Nat) : List Char :=
  [hexDigit (b / 16), hexDigit (b % 16)]

/-- `to_hex` from `lib.rs` (lines 109–115): fold over the bytes, appending the
two-digit rendering of each to the accumulated string. -/
def to_hex (buf : List Nat) : List Char :=
  buf.foldl (fun acc x => acc ++ byteToHex x) []

/-- `Blakeout::result_str`: `to_hex(&self.result)`. -/
def Blakeout.result_str (s : Blakeout) : List Char :=
  to_hex s.result

/-- The lowercase hexadecimal alphabet, for stating the hex-encoder claim. -/
def lowerHexAlphabet : List Char :=
  "0123456789abcdef".toList

/-- Value of a lowercase hex digit: its index in the alphabet. -/
def hexCharVal (c : Char) : Nat :=
  lowerHexAlphabet.indexOf c

/-- Decode a two-character hex pair back to its byte value. -/
def hexPairVal : List Char → Nat
  | [c, d] => 16 * hexCharVal c + hexCharVal d
  | _ => 0

/-- Hasher states reachable through the public API (`new`, `update`, `reset`)
for a fixed primitive `H`. -/
inductive Reachable (H : List Nat → List Nat) : Blakeout → Prop
  | new : Reachable H Blakeout.new
  | update (s : Blakeout) (data : List Nat) :
      Reachable H s → Reachable H (processInput H s data)
  | reset (s : Blakeout) : Reachable H s → Reachable H (Blakeout.reset s)

/-- `Blake2sVar::new(output_size)`: succeeds (with an empty accumulator) iff
the requested output size is one the primitive supports (1 to 32 bytes for
Blake2s); otherwise the `expect("incorrect output size")` in `lib.rs`
panics, modelled as an error. -/
def blake2sVarNew (outSize : Nat) : Except String (List Nat) :=
  if 1 ≤ outSize ∧ outSize ≤ 32 then Except.ok [] else Except.error "incorrect output size"

/-- `digest.finalize_variable(slice).expect("incorrect output size")`:
succeeds iff the destination slice length equals the configured output size
(`DEFAULT_HASH_SIZE` everywhere in `lib.rs`). -/
def finalizeVariable (H : List Nat → List Nat) (acc : List Nat) (sliceLen : Nat) :
    Except String (List Nat) :=
  if sliceLen = DEFAULT_HASH_SIZE then Except.ok (H acc) else Except.error "incorrect output size"

/-- The fill loop of `process_input` with every `expect` made explicit. -/
def fillSlotsE (H : List Nat → List Nat) : List Nat → Nat → Nat → Except String (List Nat)
  | buf, _, 0 => Except.ok buf
  | buf, i, Nat.succ n => do
    let acc0 ← blake2sVarNew DEFAULT_HASH_SIZE
    let x := i * DEFAULT_HASH_SIZE
    let out ← finalizeVariable H (acc0 ++ listSlice buf (windowStart x) x) DEFAULT_HASH_SIZE
    fillSlotsE H (writeAt buf x out) (i + 1) n

/-- `Blakeout::process_input` with every fallible primitive call
(`Blake2sVar::new(..).expect` and `finalize_variable(..).expect`) made
explicit as an `Except`; the happy path is `processInput`. -/
def processInputE (H : List Nat → List Nat) (s : Blakeout) (data : List Nat) :
    Except String Blakeout := do
  let hash_size := DEFAULT_HASH_SIZE
  let hash_count := s.buffer.length / hash_size
  let d0 ← blake2sVarNew DEFAULT_HASH_SIZE
  let d1 := (if s.dirty then d0 ++ s.result else d0) ++ data
  let slot0 ← finalizeVariable H d1 hash_size
  let buf0 := writeAt s.buffer 0 slot0
  let filled ← fillSlotsE H buf0 1 (hash_count - 1)
  let f0 ← blake2sVarNew DEFAULT_HASH_SIZE
  let rev := filled.reverse
  let res ← finalizeVariable H ((f0 ++ filled) ++ rev) hash_size
  Except.ok { buffer := rev, result := res, dirty := true }

/-- `BUFFER_SIZE` from `examples/file_blakeout.rs`. -/
def BUFFER_SIZE : Nat := 1024

/-- The sequence of chunks the `process` loop of `examples/file_blakeout.rs`
feeds to the hasher for a reader holding `contents`: each iteration reads
`n = min BUFFER_SIZE remaining` bytes and feeds `&buffer[..n]`, breaking
afterwards when `n == 0 || n < BUFFER_SIZE`. -/
def cliChunks (contents : List Nat) : List (List Nat) :=
  let n := min BUFFER_SIZE contents.length
  if n < BUFFER_SIZE then [contents.take n]
  else contents.take n :: cliChunks (contents.drop n)
termination_by contents.length
decreasing_by
  simp only [List.length_drop, BUFFER_SIZE] at *
  omega

/-- Modelled from the spec: the `crypto::digest::Digest` implementation for
`Blakeout` used by `examples/file_blakeout.rs` is absent from `src/`; per the
spec's library surface, `Digest::input` feeds data through `update`
(i.e. `process_input`). -/
def digestInput (H : List Nat → List Nat) (s : Blakeout) (data : List Nat) : Blakeout :=
  processInput H s data

/-- The hasher state built by `process::<Blakeout, _>` of
`examples/file_blakeout.rs` on a reader holding `contents`: a default hasher
fed each chunk by a separate `Digest::input` call. -/
def cliProcess (H : List Nat → List Nat) (contents : List Nat) : Blakeout :=
  (cliChunks contents).foldl (digestInput H) Blakeout.new

/-- The digest string printed by the CLI for a file holding `contents`. -/
def cliDigest (H : List Nat → List Nat) (contents : List Nat) : List Char :=
  to_hex (cliProcess H contents).result

/-- A concrete correctly-sized primitive used by the witnesses: the output is
32 copies of the input length. -/
def Hc (l : List Nat) : List Nat :=
  List.replicate DEFAULT_HASH_SIZE l.length

example : listSlice [0, 1, 2, 3, 4] 1 3 = [1, 2] := by decide
example : writeAt [0, 1, 2, 3, 4] 1 [9, 9] = [0, 9, 9, 3, 4] := by decide
example : windowStart 32 = 0 ∧ windowStart 64 = 0 ∧ windowStart 96 = 32 := by decide
example : to_hex [10, 255, 0] = ['0', 'a', 'f', 'f', '0', '0'] := by decide

/-! ### Helper lemmas about `writeAt`, `listSlice` and the fill loop -/

theorem writeAt_length (buf s : List Nat) (x : Nat) (h : x + s.length ≤ buf.length) :
    (writeAt buf x s).length = buf.length := by
  simp only [writeAt, List.length_append, List.length_take, List.length_drop]
  omega

theorem writeAt_take (buf s : List Nat) (x : Nat) (h : x ≤ buf.length) :
    (writeAt buf x s).take x = buf.take x := by
  have hlen : (buf.take x).length = x := by
    simp only [List.length_take]; omega
  calc (writeAt buf x s).take x
      = (buf.take x ++ (s ++ buf.drop (x + s.length))).take (buf.take x).length := by
        rw [writeAt, List.append_assoc, hlen]
    _ = buf.take x := List.take_left _ _

theorem take_eq_of_take_eq (l l' : List Nat) (x k : Nat) (hk : k ≤ x)
    (h : l.take x = l'.take x) : l.take k = l'.take k := by
  have h1 : (l.take x).take k = (l'.take x).take k := by rw [h]
  rwa [List.take_take, List.take_take, Nat.min_eq_left hk] at h1

theorem writeAt_take_add (buf s : List Nat) (x : Nat) (h : x ≤ buf.length) :
    (writeAt buf x s).take (x + s.length) = buf.take x ++ s := by
  have hlen : (buf.take x ++ s).length = x + s.length := by
    simp only [List.length_append, List.length_take]; omega
  calc (writeAt buf x s).take (x + s.length)
      = ((buf.take x ++ s) ++ buf.drop (x + s.length)).take ((buf.take x ++ s).length) := by
        rw [writeAt, hlen]
    _ = buf.take x ++ s := List.take_left _ _

theorem listSlice_eq_drop_take (m : List Nat) (a b : Nat) :
    listSlice m a b = (m.take b).drop a := by
  rw [listSlice, List.drop_take]

theorem listSlice_of_take_eq (l l' : List Nat) (a b : Nat) (h : l.take b = l'.take b) :
    listSlice l a b = listSlice l' a b := by
  rw [listSlice_eq_drop_take, listSlice_eq_drop_take, h]

theorem writeAt_slice (buf s : List Nat) (x : Nat) (h : x ≤ buf.length) :
    listSlice (writeAt buf x s) x (x + s.length) = s := by
  rw [listSlice_eq_drop_take, writeAt_take_add buf s x h]
  have hlen : (buf.take x).length = x := by
    simp only [List.length_take]; omega
  calc (buf.take x ++ s).drop x
      = (buf.take x ++ s).drop (buf.take x).length := by rw [hlen]
    _ = s := List.drop_left _ _

theorem fillStep_length (H : List Nat → List Nat)
    (hH : ∀ l, (H l).length = DEFAULT_HASH_SIZE)
    (buf : List Nat) (x : Nat) (h : x + DEFAULT_HASH_SIZE ≤ buf.length) :
    (fillStep H buf x).length = buf.length := by
  rw [fillStep]
  exact writeAt_length _ _ _ (by rw [hH]; exact h)

theorem fillSlots_length (H : List Nat → List Nat)
    (hH : ∀ l, (H l).length = DEFAULT_HASH_SIZE) :
    ∀ (n i : Nat) (buf : List Nat), buf.length = (i + n) * DEFAULT_HASH_SIZE →
      (fillSlots H buf i n).length = buf.length := by
  intro n
  induction n with
  | zero => intro i buf _; rfl
  | succ n ih =>
    intro i buf hlen
    have hx : i * DEFAULT_HASH_SIZE + DEFAULT_HASH_SIZE ≤ buf.length := by
      rw [hlen]; simp only [DEFAULT_HASH_SIZE]; omega
    have hstep : (fillStep H buf (i * DEFAULT_HASH_SIZE)).length = buf.length :=
      fillStep_length H hH buf _ hx
    rw [fillSlots, ih (i + 1) _ (by rw [hstep, hlen]; ring), hstep]

theorem fillSlots_take (H : List Nat → List Nat)
    (hH : ∀ l, (H l).length = DEFAULT_HASH_SIZE) :
    ∀ (n i : Nat) (buf : List Nat), buf.length = (i + n) * DEFAULT_HASH_SIZE →
      (fillSlots H buf i n).take (i * DEFAULT_HASH_SIZE) = buf.take (i * DEFAULT_HASH_SIZE) := by
  intro n
  induction n with
  | zero => intro i buf _; rfl
  | succ n ih =>
    intro i buf hlen
    have hx : i * DEFAULT_HASH_SIZE + DEFAULT_HASH_SIZE ≤ buf.length := by
      rw [hlen]; simp only [DEFAULT_HASH_SIZE]; omega
    have hxle : i * DEFAULT_HASH_SIZE ≤ buf.length := by omega
    have hstep : (fillStep H buf (i * DEFAULT_HASH_SIZE)).length = buf.length :=
      fillStep_length H hH buf _ hx
    have hih := ih (i + 1) (fillStep H buf (i * DEFAULT_HASH_SIZE))
      (by rw [hstep, hlen]; ring)
    rw [fillSlots]
    have h1 : (fillSlots H (fillStep H buf (i * DEFAULT_HASH_SIZE)) (i + 1) n).take (i * DEFAULT_HASH_SIZE)
        = (fillStep H buf (i * DEFAULT_HASH_SIZE)).take (i * DEFAULT_HASH_SIZE) :=
      take_eq_of_take_eq _ _ ((i + 1) * DEFAULT_HASH_SIZE) _
        (by simp only [DEFAULT_HASH_SIZE]; omega) hih
    rw [h1, fillStep, writeAt_take _ _ _ hxle]

theorem fillSlots_slot (H : List Nat → List Nat)
    (hH : ∀ l, (H l).length = DEFAULT_HASH_SIZE) :
    ∀ (n i : Nat) (buf : List Nat), buf.length = (i + n) * DEFAULT_HASH_SIZE →
      ∀ j, i ≤ j → j < i + n →
        listSlice (fillSlots H buf i n) (j * DEFAULT_HASH_SIZE) (j * DEFAULT_HASH_SIZE + DEFAULT_HASH_SIZE)
          = H (listSlice (fillSlots H buf i n) (windowStart (j * DEFAULT_HASH_SIZE)) (j * DEFAULT_HASH_SIZE)) := by
  intro n
  induction n with
  | zero => intro i buf _ j hij hj; omega
  | succ n ih =>
    intro i buf hlen j hij hj
    have hx : i * DEFAULT_HASH_SIZE + DEFAULT_HASH_SIZE ≤ buf.length := by
      rw [hlen]; simp only [DEFAULT_HASH_SIZE]; omega
    have hxle : i * DEFAULT_HASH_SIZE ≤ buf.length := by omega
    have hstep : (fillStep H buf (i * DEFAULT_HASH_SIZE)).length = buf.length :=
      fillStep_length H hH buf _ hx
    have hlen' : (fillStep H buf (i * DEFAULT_HASH_SIZE)).length = (i + 1 + n) * DEFAULT_HASH_SIZE := by
      rw [hstep, hlen]; ring_nf
    rcases Nat.eq_or_lt_of_le hij with rfl | hlt
    · -- j = i : the slot written by this iteration
      rw [fillSlots]
      have htk := fillSlots_take H hH n (i + 1) (fillStep H buf (i * DEFAULT_HASH_SIZE)) hlen'
      -- the written slot survives the rest of the loop
      have hslot : listSlice (fillSlots H (fillStep H buf (i * DEFAULT_HASH_SIZE)) (i + 1) n)
            (i * DEFAULT_HASH_SIZE) (i * DEFAULT_HASH_SIZE + DEFAULT_HASH_SIZE)
          = listSlice (fillStep H buf (i * DEFAULT_HASH_SIZE))
            (i * DEFAULT_HASH_SIZE) (i * DEFAULT_HASH_SIZE + DEFAULT_HASH_SIZE) := by
        apply listSlice_of_take_eq
        have : i * DEFAULT_HASH_SIZE + DEFAULT_HASH_SIZE = (i + 1) * DEFAULT_HASH_SIZE := by ring
        rw [this]; exact htk
      have hwrite : listSlice (fillStep H buf (i * DEFAULT_HASH_SIZE))
            (i * DEFAULT_HASH_SIZE) (i * DEFAULT_HASH_SIZE + DEFAULT_HASH_SIZE)
          = H (listSlice buf (windowStart (i * DEFAULT_HASH_SIZE)) (i * DEFAULT_HASH_SIZE)) := by
        have := writeAt_slice buf
          (H (listSlice buf (windowStart (i * DEFAULT_HASH_SIZE)) (i * DEFAULT_HASH_SIZE)))
          (i * DEFAULT_HASH_SIZE) hxle
        rw [hH] at this
        rw [fillStep]; exact this
      -- the window read by this iteration is preserved in the final buffer
      have hpre : (fillSlots H (fillStep H buf (i * DEFAULT_HASH_SIZE)) (i + 1) n).take (i * DEFAULT_HASH_SIZE)
          = buf.take (i * DEFAULT_HASH_SIZE) := by
        have h1 := take_eq_of_take_eq _ _ ((i + 1) * DEFAULT_HASH_SIZE) (i * DEFAULT_HASH_SIZE)
          (by simp only [DEFAULT_HASH_SIZE]; omega) htk
        rw [h1, fillStep, writeAt_take _ _ _ hxle]
      have hwin : listSlice (fillSlots H (fillStep H buf (i * DEFAULT_HASH_SIZE)) (i + 1) n)
            (windowStart (i * DEFAULT_HASH_SIZE)) (i * DEFAULT_HASH_SIZE)
          = listSlice buf (windowStart (i * DEFAULT_HASH_SIZE)) (i * DEFAULT_HASH_SIZE) :=
        listSlice_of_take_eq _ _ _ _ hpre
      rw [hslot, hwrite, hwin]
    · -- j > i : handled by the rest of the loop
      rw [fillSlots]
      exact ih (i + 1) (fillStep H buf (i * DEFAULT_HASH_SIZE)) hlen' j hlt (by omega)

theorem fillSlots_congr (H : List Nat → List Nat)
    (hH : ∀ l, (H l).length = DEFAULT_HASH_SIZE) :
    ∀ (n i : Nat) (buf1 buf2 : List Nat),
      buf1.length = (i + n) * DEFAULT_HASH_SIZE → buf2.length = (i + n) * DEFAULT_HASH_SIZE →
      buf1.take (i * DEFAULT_HASH_SIZE) = buf2.take (i * DEFAULT_HASH_SIZE) →
      fillSlots H buf1 i n = fillSlots H buf2 i n := by
  intro n
  induction n with
  | zero =>
    intro i buf1 buf2 hl1 hl2 hpre
    have e1 : buf1.take (i * DEFAULT_HASH_SIZE) = buf1 :=
      List.take_of_length_le (by rw [hl1]; simp)
    have e2 : buf2.take (i * DEFAULT_HASH_SIZE) = buf2 :=
      List.take_of_length_le (by rw [hl2]; simp)
    show buf1 = buf2
    rw [← e1, ← e2, hpre]
  | succ n ih =>
    intro i buf1 buf2 hl1 hl2 hpre
    have hx1 : i * DEFAULT_HASH_SIZE ≤ buf1.length := by
      rw [hl1]; simp only [DEFAULT_HASH_SIZE]; omega
    have hx2 : i * DEFAULT_HASH_SIZE ≤ buf2.length := by
      rw [hl2]; simp only [DEFAULT_HASH_SIZE]; omega
    have hwin : listSlice buf1 (windowStart (i * DEFAULT_HASH_SIZE)) (i * DEFAULT_HASH_SIZE)
        = listSlice buf2 (windowStart (i * DEFAULT_HASH_SIZE)) (i * DEFAULT_HASH_SIZE) :=
      listSlice_of_take_eq _ _ _ _ hpre
    rw [fillSlots, fillSlots]
    apply ih (i + 1)
    · rw [fillStep_length H hH buf1 _ (by rw [hl1]; simp only [DEFAULT_HASH_SIZE]; omega), hl1]
      ring_nf
    · rw [fillStep_length H hH buf2 _ (by rw [hl2]; simp only [DEFAULT_HASH_SIZE]; omega), hl2]
      ring_nf
    · have ha1 := writeAt_take_add buf1
        (H (listSlice buf1 (windowStart (i * DEFAULT_HASH_SIZE)) (i * DEFAULT_HASH_SIZE)))
        (i * DEFAULT_HASH_SIZE) hx1
      have ha2 := writeAt_take_add buf2
        (H (listSlice buf2 (windowStart (i * DEFAULT_HASH_SIZE)) (i * DEFAULT_HASH_SIZE)))
        (i * DEFAULT_HASH_SIZE) hx2
      rw [hH] at ha1 ha2
      have heq : i * DEFAULT_HASH_SIZE + DEFAULT_HASH_SIZE = (i + 1) * DEFAULT_HASH_SIZE := by ring
      rw [heq] at ha1 ha2
      rw [fillStep, fillStep, ha1, ha2, hwin, hpre]

/-! ### Scratchpad-level lemmas -/

theorem scratchpad_eq (H : List Nat → List Nat) (s : Blakeout) (data : List Nat) :
    scratchpad H s data
      = fillSlots H (writeAt s.buffer 0 (H ((if s.dirty then s.result else []) ++ data))) 1
          (s.buffer.length / DEFAULT_HASH_SIZE - 1) := rfl

theorem hash_count_eq (s : Blakeout)
    (hlen : s.buffer.length = DEFAULT_HASH_SIZE * DEFAULT_HASH_COUNT) :
    s.buffer.length / DEFAULT_HASH_SIZE = DEFAULT_HASH_COUNT := by
  rw [hlen]
  simp only [DEFAULT_HASH_SIZE, DEFAULT_HASH_COUNT]

theorem buf0_length (H : List Nat → List Nat)
    (hH : ∀ l, (H l).length = DEFAULT_HASH_SIZE) (s : Blakeout) (acc : List Nat)
    (hlen : s.buffer.length = DEFAULT_HASH_SIZE * DEFAULT_HASH_COUNT) :
    (writeAt s.buffer 0 (H acc)).length = (1 + (DEFAULT_HASH_COUNT - 1)) * DEFAULT_HASH_SIZE := by
  rw [writeAt_length _ _ _ (by rw [hH, hlen]; simp only [DEFAULT_HASH_SIZE, DEFAULT_HASH_COUNT]; omega),
    hlen]
  simp only [DEFAULT_HASH_SIZE, DEFAULT_HASH_COUNT]

theorem scratchpad_length (H : List Nat → List Nat)
    (hH : ∀ l, (H l).length = DEFAULT_HASH_SIZE) (s : Blakeout) (data : List Nat)
    (hlen : s.buffer.length = DEFAULT_HASH_SIZE * DEFAULT_HASH_COUNT) :
    (scratchpad H s data).length = s.buffer.length := by
  rw [scratchpad_eq, hash_count_eq s hlen,
    fillSlots_length H hH (DEFAULT_HASH_COUNT - 1) 1 _ (buf0_length H hH s _ hlen),
    writeAt_length _ _ _ (by rw [hH, hlen]; simp only [DEFAULT_HASH_SIZE, DEFAULT_HASH_COUNT]; omega)]

/-- C1: in `update`'s fill pass, for every slot index `i` from 1 to
`DEFAULT_HASH_COUNT - 1` (byte offset `x = i * DEFAULT_HASH_SIZE`), the slot
at `[x, x + DEFAULT_HASH_SIZE)` of the filled scratchpad is the block hash of
the window `buffer[start..x]` with `start = max 0 (x - 2 * DEFAULT_HASH_SIZE)`;
the window ends strictly before the slot's own position, so no slot is derived
from bytes at or after itself.  (The strictly increasing order of the loop is
the recursion order of `fillSlots`.) -/
theorem c1_fill_pass (H : List Nat → List Nat)
    (hH : ∀ l, (H l).length = DEFAULT_HASH_SIZE)
    (s : Blakeout) (data : List Nat)
    (hlen : s.buffer.length = DEFAULT_HASH_SIZE * DEFAULT_HASH_COUNT)
    (i : Nat) (h1 : 1 ≤ i) (h2 : i < DEFAULT_HASH_COUNT) :
    windowStart (i * DEFAULT_HASH_SIZE)
        = max 0 (i * DEFAULT_HASH_SIZE - 2 * DEFAULT_HASH_SIZE)
    ∧ windowStart (i * DEFAULT_HASH_SIZE) < i * DEFAULT_HASH_SIZE
    ∧ listSlice (scratchpad H s data) (i * DEFAULT_HASH_SIZE)
          (i * DEFAULT_HASH_SIZE + DEFAULT_HASH_SIZE)
        = H (listSlice (scratchpad H s data)
          (windowStart (i * DEFAULT_HASH_SIZE)) (i * DEFAULT_HASH_SIZE)) := by
  refine ⟨?_, ?_, ?_⟩
  · simp only [windowStart, DEFAULT_HASH_SIZE]
    split <;> omega
  · simp only [windowStart, DEFAULT_HASH_SIZE]
    split <;> omega
  · rw [scratchpad_eq, hash_count_eq s hlen]
    exact fillSlots_slot H hH (DEFAULT_HASH_COUNT - 1) 1 _ (buf0_length H hH s _ hlen) i h1
      (by simp only [DEFAULT_HASH_COUNT] at h2 ⊢; omega)

/-- C3: on every `update(data)` call, slot 0 of the scratchpad is the block
hash of the previous result concatenated with `data` when the dirty (chained)
flag is true, and the block hash of `data` alone when it is false; and
`update` always sets the dirty flag to true. -/
theorem c3_slot0_chaining (H : List Nat → List Nat)
    (hH : ∀ l, (H l).length = DEFAULT_HASH_SIZE)
    (s : Blakeout) (data : List Nat)
    (hlen : s.buffer.length = DEFAULT_HASH_SIZE * DEFAULT_HASH_COUNT) :
    (s.dirty = true →
      listSlice (scratchpad H s data) 0 DEFAULT_HASH_SIZE = H (s.result ++ data))
    ∧ (s.dirty = false →
      listSlice (scratchpad H s data) 0 DEFAULT_HASH_SIZE = H data)
    ∧ (Blakeout.update H s data).dirty = true := by
  have hslot0 : listSlice (scratchpad H s data) 0 DEFAULT_HASH_SIZE
      = H ((if s.dirty then s.result else []) ++ data) := by
    rw [scratchpad_eq, hash_count_eq s hlen]
    have htk := fillSlots_take H hH (DEFAULT_HASH_COUNT - 1) 1 _
      (buf0_length H hH s ((if s.dirty then s.result else []) ++ data) hlen)
    rw [one_mul] at htk
    rw [listSlice_of_take_eq _ _ 0 DEFAULT_HASH_SIZE htk]
    have hw := writeAt_slice s.buffer (H ((if s.dirty then s.result else []) ++ data)) 0
      (by omega)
    rw [hH] at hw
    simpa using hw
  refine ⟨fun hd => ?_, fun hd => ?_, rfl⟩
  · rw [hslot0, hd]
    simp
  · rw [hslot0, hd]
    simp

/-- C2: `update`'s final fold feeds one fresh accumulator the whole filled
scratchpad forwards and then, after the buffer has been reversed end-to-end,
the reversed buffer, finalizing that accumulator into `result`; the stored
buffer after `update` is the byte-level reversal of the filled scratchpad. -/
theorem c2_final_fold (H : List Nat → List Nat) (s : Blakeout) (data : List Nat) :
    (Blakeout.update H s data).result
        = H (scratchpad H s data ++ (scratchpad H s data).reverse)
    ∧ (Blakeout.update H s data).buffer = (scratchpad H s data).reverse
    ∧ (∀ k, k < (scratchpad H s data).length →
        (Blakeout.update H s data).buffer[k]?
          = (scratchpad H s data)[(scratchpad H s data).length - 1 - k]?) := by
  refine ⟨rfl, rfl, fun k hk => ?_⟩
  show (scratchpad H s data).reverse[k]? = _
  exact List.getElem?_reverse hk

/-- C4 (amended): `reset` clears the dirty (chained) flag and leaves both the
buffer and the result unchanged; in particular it does not zero-fill the
buffer. -/
theorem c4_reset_amended (s : Blakeout) :
    (Blakeout.reset s).dirty = false
    ∧ (Blakeout.reset s).buffer = s.buffer
    ∧ (Blakeout.reset s).result = s.result :=
  ⟨rfl, rfl, rfl⟩

/-- C4 (counterexample): on a full-size hasher whose buffer holds all ones,
`reset` does not return the buffer to the all-zero initial state. -/
theorem c4_reset_cex :
    ¬ ((Blakeout.reset
        { buffer := List.replicate (DEFAULT_HASH_SIZE * DEFAULT_HASH_COUNT) 1
          result := List.replicate DEFAULT_HASH_SIZE 0
          dirty := true }).buffer
      = List.replicate (DEFAULT_HASH_SIZE * DEFAULT_HASH_COUNT) 0) := by
  intro h
  have h0 := congrArg (fun l => l[0]?) h
  norm_num [Blakeout.reset, List.getElem?_replicate, DEFAULT_HASH_SIZE, DEFAULT_HASH_COUNT]
    at h0

theorem processInput_fresh_congr (H : List Nat → List Nat)
    (hH : ∀ l, (H l).length = DEFAULT_HASH_SIZE)
    (s1 s2 : Blakeout) (data : List Nat)
    (hd1 : s1.dirty = false) (hd2 : s2.dirty = false)
    (hl1 : s1.buffer.length = DEFAULT_HASH_SIZE * DEFAULT_HASH_COUNT)
    (hl2 : s2.buffer.length = DEFAULT_HASH_SIZE * DEFAULT_HASH_COUNT) :
    processInput H s1 data = processInput H s2 data := by
  have hsp : scratchpad H s1 data = scratchpad H s2 data := by
    rw [scratchpad_eq, scratchpad_eq, hash_count_eq s1 hl1, hash_count_eq s2 hl2, hd1, hd2]
    simp only [Bool.false_eq_true, if_false]
    apply fillSlots_congr H hH (DEFAULT_HASH_COUNT - 1) 1
    · exact buf0_length H hH s1 ([] ++ data) hl1
    · exact buf0_length H hH s2 ([] ++ data) hl2
    · have ha1 := writeAt_take_add s1.buffer (H ([] ++ data)) 0 (by omega)
      have ha2 := writeAt_take_add s2.buffer (H ([] ++ data)) 0 (by omega)
      rw [hH] at ha1 ha2
      simp only [List.take_zero, List.nil_append, Nat.zero_add] at ha1 ha2
      simp only [List.nil_append]
      rw [one_mul, ha1, ha2]
  simp only [processInput]
  rw [hsp]

theorem reachable_buffer_length (H : List Nat → List Nat)
    (hH : ∀ l, (H l).length = DEFAULT_HASH_SIZE) :
    ∀ s : Blakeout, Reachable H s →
      s.buffer.length = DEFAULT_HASH_SIZE * DEFAULT_HASH_COUNT := by
  intro s hs
  induction hs with
  | new => simp [Blakeout.new]
  | update s' d hr ih =>
    show (processInput H s' d).buffer.length = _
    simp only [processInput, List.length_reverse]
    rw [scratchpad_length H hH s' d ih, ih]
  | reset s' hr ih => exact ih

/-- C5: on any reachable hasher state, `reset()` followed by `update(d)`
produces the same result bytes as `update(d)` on a freshly constructed
hasher. -/
theorem c5_reset_then_update (H : List Nat → List Nat)
    (hH : ∀ l, (H l).length = DEFAULT_HASH_SIZE)
    (s : Blakeout) (hs : Reachable H s) (data : List Nat) :
    (Blakeout.update H (Blakeout.reset s) data).result
      = (Blakeout.update H Blakeout.new data).result := by
  have h := processInput_fresh_congr H hH (Blakeout.reset s) Blakeout.new data rfl rfl
    (reachable_buffer_length H hH s hs) (by simp [Blakeout.new])
  rw [Blakeout.update, Blakeout.update, h]

/-- C10: for any two hasher states whose dirty (chained) flag is false —
whatever their buffer contents and stored result — `update(d)` yields the
same result bytes and the same final buffer on both, because the fill pass
overwrites every slot before any slot is read. -/
theorem c10_fresh_state_independence (H : List Nat → List Nat)
    (hH : ∀ l, (H l).length = DEFAULT_HASH_SIZE)
    (s1 s2 : Blakeout) (data : List Nat)
    (hd1 : s1.dirty = false) (hd2 : s2.dirty = false)
    (hl1 : s1.buffer.length = DEFAULT_HASH_SIZE * DEFAULT_HASH_COUNT)
    (hl2 : s2.buffer.length = DEFAULT_HASH_SIZE * DEFAULT_HASH_COUNT) :
    (Blakeout.update H s1 data).result = (Blakeout.update H s2 data).result
    ∧ (Blakeout.update H s1 data).buffer = (Blakeout.update H s2 data).buffer := by
  have h := processInput_fresh_congr H hH s1 s2 data hd1 hd2 hl1 hl2
  rw [Blakeout.update, Blakeout.update, h]
  exact ⟨rfl, rfl⟩

/-! ### Hex encoder lemmas -/

theorem to_hex_go (l : List Nat) : ∀ a : List Char,
    l.foldl (fun acc x => acc ++ byteToHex x) a
      = a ++ l.foldl (fun acc x => acc ++ byteToHex x) [] := by
  induction l with
  | nil => intro a; simp
  | cons x xs ih =>
    intro a
    simp only [List.foldl_cons]
    rw [ih (a ++ byteToHex x), ih ([] ++ byteToHex x)]
    simp

theorem to_hex_append (xs ys : List Nat) : to_hex (xs ++ ys) = to_hex xs ++ to_hex ys := by
  simp only [to_hex, List.foldl_append]
  exact to_hex_go ys _

theorem to_hex_cons (x : Nat) (l : List Nat) : to_hex (x :: l) = byteToHex x ++ to_hex l := by
  simp only [to_hex, List.foldl_cons, List.nil_append]
  exact to_hex_go l (byteToHex x)

theorem to_hex_length (l : List Nat) : (to_hex l).length = 2 * l.length := by
  induction l with
  | nil => rfl
  | cons x xs ih =>
    rw [to_hex_cons, List.length_append, ih]
    simp only [byteToHex, List.length_cons, List.length_nil, List.length_cons]
    omega

theorem hexDigit_mem (n : Nat) (h : n < 16) : hexDigit n ∈ lowerHexAlphabet := by
  interval_cases n <;> decide

theorem hexCharVal_hexDigit (n : Nat) (h : n < 16) : hexCharVal (hexDigit n) = n := by
  interval_cases n <;> decide

/-- C6: after every `update`, on any state and any input, the result is
exactly 32 bytes and `result_str` is exactly 64 hex characters. -/
theorem c6_result_size (H : List Nat → List Nat)
    (hH : ∀ l, (H l).length = DEFAULT_HASH_SIZE)
    (s : Blakeout) (data : List Nat) :
    (Blakeout.update H s data).result.length = 32
    ∧ (Blakeout.update H s data).result_str.length = 64 := by
  have h1 : (Blakeout.update H s data).result.length = 32 := by
    simp only [Blakeout.update, processInput]
    rw [hH]
    rfl
  refine ⟨h1, ?_⟩
  rw [Blakeout.result_str, to_hex_length, h1]

/-- C9: the hex encoder is total: it maps the empty sequence to the empty
string, concatenates per-byte renderings in input order, and renders each
byte `b < 256` as exactly two characters of the lowercase hex alphabet that
decode back to `b` (zero-padded two-digit form). -/
theorem c9_hex_encoder (b : Nat) (hb : b < 256) (xs ys : List Nat) :
    to_hex [] = []
    ∧ to_hex (xs ++ ys) = to_hex xs ++ to_hex ys
    ∧ to_hex [b] = [hexDigit (b / 16), hexDigit (b % 16)]
    ∧ (to_hex [b]).length = 2
    ∧ (∀ c, c ∈ to_hex [b] → c ∈ lowerHexAlphabet)
    ∧ hexPairVal (to_hex [b]) = b := by
  have hsingle : to_hex [b] = [hexDigit (b / 16), hexDigit (b % 16)] := by
    rw [to_hex_cons]
    rfl
  have hdiv : b / 16 < 16 := by omega
  have hmod : b % 16 < 16 := by omega
  refine ⟨rfl, to_hex_append xs ys, hsingle, by rw [hsingle]; rfl, ?_, ?_⟩
  · intro c hc
    rw [hsingle] at hc
    simp only [List.mem_cons, List.not_mem_nil, or_false] at hc
    rcases hc with rfl | rfl
    · exact hexDigit_mem _ hdiv
    · exact hexDigit_mem _ hmod
  · rw [hsingle]
    show 16 * hexCharVal (hexDigit (b / 16)) + hexCharVal (hexDigit (b % 16)) = b
    rw [hexCharVal_hexDigit _ hdiv, hexCharVal_hexDigit _ hmod]
    omega

/-! ### Error-handling model (C7) and CLI model (C8) -/

theorem fillSlotsE_ok (H : List Nat → List Nat) :
    ∀ (n i : Nat) (buf : List Nat),
      fillSlotsE H buf i n = Except.ok (fillSlots H buf i n) := by
  intro n
  induction n with
  | zero => intro i buf; rfl
  | succ n ih =>
    intro i buf
    rw [fillSlotsE, fillSlots]
    simp [blake2sVarNew, finalizeVariable, fillStep, Bind.bind, Except.bind, ih,
      DEFAULT_HASH_SIZE]

/-- C7: the output length is the hard-coded constant `DEFAULT_HASH_SIZE = 32`,
which the primitive supports, so the configuration check `Blake2sVar::new(32)`
always succeeds; construction (`Blakeout::new`) performs no primitive call at
all and cannot raise; and every `expect` executed inside `update`
(`process_input`) succeeds, i.e. no check in `update` can fail at runtime. -/
theorem c7_no_failing_checks (H : List Nat → List Nat) (s : Blakeout) (data : List Nat) :
    blake2sVarNew DEFAULT_HASH_SIZE = Except.ok []
    ∧ processInputE H s data = Except.ok (processInput H s data) := by
  constructor
  · norm_num [blake2sVarNew, DEFAULT_HASH_SIZE]
  · simp [processInputE, processInput, scratchpad, blake2sVarNew, finalizeVariable,
      fillSlotsE_ok, Bind.bind, Except.bind, DEFAULT_HASH_SIZE]

/-- C8: the CLI feeds a file of exactly `BUFFER_SIZE` bytes to the hasher as
TWO separate `update` calls (the full chunk, then an empty chunk), not as one
logical message; the second call runs on a hasher whose dirty (chained) flag
is already set, so it re-mixes the previous digest rather than reproducing
the single-`update` digest of the whole file. -/
theorem c8_cli_chunked_updates (H : List Nat → List Nat) :
    cliChunks (List.replicate BUFFER_SIZE 0) = [List.replicate BUFFER_SIZE 0, []]
    ∧ cliProcess H (List.replicate BUFFER_SIZE 0)
        = processInput H (processInput H Blakeout.new (List.replicate BUFFER_SIZE 0)) []
    ∧ (processInput H Blakeout.new (List.replicate BUFFER_SIZE 0)).dirty = true := by
  have hch : cliChunks (List.replicate BUFFER_SIZE 0) = [List.replicate BUFFER_SIZE 0, []] := by
    rw [cliChunks]
    norm_num [BUFFER_SIZE]
    rw [cliChunks]
    norm_num [BUFFER_SIZE]
  refine ⟨hch, ?_, rfl⟩
  rw [cliProcess, hch]
  rfl

/-! ### Witnesses: concrete instantiations of the hypotheses -/

theorem c1_fill_pass_witness :
    (∀ l, (Hc l).length = DEFAULT_HASH_SIZE)
    ∧ Blakeout.new.buffer.length = DEFAULT_HASH_SIZE * DEFAULT_HASH_COUNT
    ∧ 1 ≤ 1 ∧ 1 < DEFAULT_HASH_COUNT
    ∧ (windowStart (1 * DEFAULT_HASH_SIZE)
          = max 0 (1 * DEFAULT_HASH_SIZE - 2 * DEFAULT_HASH_SIZE)
        ∧ windowStart (1 * DEFAULT_HASH_SIZE) < 1 * DEFAULT_HASH_SIZE
        ∧ listSlice (scratchpad Hc Blakeout.new []) (1 * DEFAULT_HASH_SIZE)
              (1 * DEFAULT_HASH_SIZE + DEFAULT_HASH_SIZE)
            = Hc (listSlice (scratchpad Hc Blakeout.new [])
              (windowStart (1 * DEFAULT_HASH_SIZE)) (1 * DEFAULT_HASH_SIZE))) :=
  ⟨fun l => by simp [Hc], by simp [Blakeout.new], le_refl 1,
    by norm_num [DEFAULT_HASH_COUNT],
    c1_fill_pass Hc (fun l => by simp [Hc]) Blakeout.new []
      (by simp [Blakeout.new]) 1 (le_refl 1) (by norm_num [DEFAULT_HASH_COUNT])⟩

theorem c3_slot0_chaining_witness :
    (∀ l, (Hc l).length = DEFAULT_HASH_SIZE)
    ∧ (Blakeout.mk (List.replicate (DEFAULT_HASH_SIZE * DEFAULT_HASH_COUNT) 0)
          (List.replicate DEFAULT_HASH_SIZE 7) true).buffer.length
        = DEFAULT_HASH_SIZE * DEFAULT_HASH_COUNT
    ∧ ((Blakeout.mk (List.replicate (DEFAULT_HASH_SIZE * DEFAULT_HASH_COUNT) 0)
          (List.replicate DEFAULT_HASH_SIZE 7) true).dirty = true →
        listSlice (scratchpad Hc (Blakeout.mk
            (List.replicate (DEFAULT_HASH_SIZE * DEFAULT_HASH_COUNT) 0)
            (List.replicate DEFAULT_HASH_SIZE 7) true) [1, 2]) 0 DEFAULT_HASH_SIZE
          = Hc ((Blakeout.mk (List.replicate (DEFAULT_HASH_SIZE * DEFAULT_HASH_COUNT) 0)
            (List.replicate DEFAULT_HASH_SIZE 7) true).result ++ [1, 2]))
    ∧ ((Blakeout.mk (List.replicate (DEFAULT_HASH_SIZE * DEFAULT_HASH_COUNT) 0)
          (List.replicate DEFAULT_HASH_SIZE 7) true).dirty = false →
        listSlice (scratchpad Hc (Blakeout.mk
            (List.replicate (DEFAULT_HASH_SIZE * DEFAULT_HASH_COUNT) 0)
            (List.replicate DEFAULT_HASH_SIZE 7) true) [1, 2]) 0 DEFAULT_HASH_SIZE
          = Hc [1, 2])
    ∧ (Blakeout.update Hc (Blakeout.mk
          (List.replicate (DEFAULT_HASH_SIZE * DEFAULT_HASH_COUNT) 0)
          (List.replicate DEFAULT_HASH_SIZE 7) true) [1, 2]).dirty = true := by
  have h := c3_slot0_chaining Hc (fun l => by simp [Hc])
    (Blakeout.mk (List.replicate (DEFAULT_HASH_SIZE * DEFAULT_HASH_COUNT) 0)
      (List.replicate DEFAULT_HASH_SIZE 7) true) [1, 2] (by simp)
  exact ⟨fun l => by simp [Hc], by simp, h.1, h.2.1, h.2.2⟩

theorem c5_reset_then_update_witness :
    (∀ l, (Hc l).length = DEFAULT_HASH_SIZE)
    ∧ Reachable Hc Blakeout.new
    ∧ (Blakeout.update Hc (Blakeout.reset Blakeout.new) [1]).result
        = (Blakeout.update Hc Blakeout.new [1]).result :=
  ⟨fun l => by simp [Hc], Reachable.new,
    c5_reset_then_update Hc (fun l => by simp [Hc]) Blakeout.new Reachable.new [1]⟩

theorem c6_result_size_witness :
    (∀ l, (Hc l).length = DEFAULT_HASH_SIZE)
    ∧ (Blakeout.update Hc Blakeout.new []).result.length = 32
    ∧ (Blakeout.update Hc Blakeout.new []).result_str.length = 64 :=
  ⟨fun l => by simp [Hc],
    (c6_result_size Hc (fun l => by simp [Hc]) Blakeout.new []).1,
    (c6_result_size Hc (fun l => by simp [Hc]) Blakeout.new []).2⟩

theorem c9_hex_encoder_witness :
    10 < 256
    ∧ to_hex [10] = ['0', 'a']
    ∧ hexPairVal (to_hex [10]) = 10
    ∧ to_hex ([0] ++ [255]) = to_hex [0] ++ to_hex [255] :=
  ⟨by decide, by decide,
    (c9_hex_encoder 10 (by decide) [0] [255]).2.2.2.2.2,
    (c9_hex_encoder 10 (by decide) [0] [255]).2.1⟩

theorem c10_fresh_state_independence_witness :
    (∀ l, (Hc l).length = DEFAULT_HASH_SIZE)
    ∧ Blakeout.new.dirty = false
    ∧ (Blakeout.mk (List.replicate (DEFAULT_HASH_SIZE * DEFAULT_HASH_COUNT) 5) [9] false).dirty
        = false
    ∧ Blakeout.new.buffer.length = DEFAULT_HASH_SIZE * DEFAULT_HASH_COUNT
    ∧ (Blakeout.mk (List.replicate (DEFAULT_HASH_SIZE * DEFAULT_HASH_COUNT) 5) [9]
        false).buffer.length = DEFAULT_HASH_SIZE * DEFAULT_HASH_COUNT
    ∧ ((Blakeout.update Hc Blakeout.new [3]).result
          = (Blakeout.update Hc (Blakeout.mk
              (List.replicate (DEFAULT_HASH_SIZE * DEFAULT_HASH_COUNT) 5) [9] false) [3]).result
        ∧ (Blakeout.update Hc Blakeout.new [3]).buffer
          = (Blakeout.update Hc (Blakeout.mk
              (List.replicate (DEFAULT_HASH_SIZE * DEFAULT_HASH_COUNT) 5) [9] false) [3]).buffer) :=
  ⟨fun l => by simp [Hc], rfl, rfl, by simp [Blakeout.new], by simp,
    c10_fresh_state_independence Hc (fun l => by simp [Hc]) Blakeout.new
      (Blakeout.mk (List.replicate (DEFAULT_HASH_SIZE * DEFAULT_HASH_COUNT) 5) [9] false) [3]
      rfl rfl (by simp [Blakeout.new]) (by simp)⟩
